import Mathlib

/-!
Shallow embedding of the data-parallel distributed trainer in
`src/basic-distributed-ml-pipeline/wine-quality-prediction-master-worker.go`.

Modelling conventions:
* Go `float64` values are modelled as exact rationals `ℚ` (the claims under
  study are about the algebraic formulas the code computes, not about
  floating-point rounding).  Division in `ℚ` is total with `x / 0 = 0`; each
  place where the Go code can divide by zero is noted at its definition.
* The Go `int64` update counter and all loop indices are modelled as `Nat`.
* Worker goroutines are modelled by sequential composition in `runPipeline`:
  the facts proved below (update count, weight-vector length, metric keys) are
  independent of the interleaving because every model mutation in the source
  happens under `Model.mu` and every metric write under `Model.MetricsMu`.
* Go indexing panics (out-of-range slice access) have no value; the embedded
  functions are total and each such spot is noted in a comment.  All theorems
  are stated on inputs where the Go code does not panic.
-/

namespace WinePipeline

/-- Structure `DataPoint` from the source: a feature vector and a label. -/
structure DataPoint where
  Features : List ℚ
  Label : ℚ
deriving DecidableEq, Inhabited, Repr

/-- Structure `Model` from the source: weight vector, bias, update counter and the
epoch → MSE metrics map.  The Go `map[int]float64` reads `0` at an absent key,
so `Metrics` is modelled as a total function `Nat → ℚ` initialised to `0`.
The two mutexes (`mu`, `MetricsMu`) have no functional content and are not
part of the state. -/
structure Model where
  Weights : List ℚ
  Bias : ℚ
  Updates : Nat
  Metrics : Nat → ℚ

/-- The running sum of `Model.predict`: `sum := m.Bias`, then
`sum += weight * features[i]` for each weight.  When `features` is shorter
than the weight list the Go code panics on `features[i]`; the embedding
returns the partial sum. -/
def predictAux (sum : ℚ) : List ℚ → List ℚ → ℚ
  | [], _ => sum
  | _ :: _, [] => sum
  | w :: ws, f :: fs => predictAux (sum + w * f) ws fs

/-- Function `Model.predict` from the source: bias plus the weight/feature products. -/
def Model.predict (m : Model) (features : List ℚ) : ℚ :=
  predictAux m.Bias m.Weights features

/-- The loop `for j, feature := range dp.Features { weightGradients[j] += error * feature }`.
When `fs` is longer than `ws` the Go code panics on `weightGradients[j]`; the
embedding drops the excess. -/
def addScaled : List ℚ → ℚ → List ℚ → List ℚ
  | ws, _, [] => ws
  | [], _, _ :: _ => []
  | w :: ws, e, f :: fs => (w + e * f) :: addScaled ws e fs

/-- The three per-batch accumulators of `Worker.trainWorker`. -/
structure BatchGrad where
  weightGradients : List ℚ
  biasGradient : ℚ
  batchError : ℚ
deriving DecidableEq, Repr

/-- The zeroed accumulators: `weightGradients := make([]float64, len(w.Model.Weights))`
together with `biasGradient = 0` and `batchError = 0`. -/
def initGrad (m : Model) : BatchGrad :=
  ⟨List.replicate m.Weights.length 0, 0, 0⟩

/-- The `for _, dp := range batch` accumulation loop of `Worker.trainWorker`:
prediction error, squared-error sum, per-feature gradient sums. -/
def accumGrad (m : Model) : BatchGrad → List DataPoint → BatchGrad
  | acc, [] => acc
  | acc, dp :: rest =>
    let e := m.predict dp.Features - dp.Label
    accumGrad m ⟨addScaled acc.weightGradients e dp.Features,
                 acc.biasGradient + e,
                 acc.batchError + e ^ 2⟩ rest

/-- The loop `for j := range w.Model.Weights { Weights[j] -= lr * weightGradients[j] / len }`.
When `gs` is shorter than `ws` the Go code panics on `weightGradients[j]`; the
embedding leaves the tail unchanged. -/
def updateWeights (lr bl : ℚ) : List ℚ → List ℚ → List ℚ
  | w :: ws, g :: gs => (w - lr * g / bl) :: updateWeights lr bl ws gs
  | ws, _ => ws

/-- The mutex-guarded update section of `Worker.trainWorker` (the spec's
`Model.applyGradient`): subtract `learningRate * gradient / batchLen` from
each weight and from the bias, and increment the update counter. -/
def Model.applyGradient (m : Model) (wg : List ℚ) (bg : ℚ) (batchLen : Nat)
    (lr : ℚ) : Model :=
  { m with
    Weights := updateWeights lr (batchLen : ℚ) m.Weights wg
    Bias := m.Bias - lr * bg / (batchLen : ℚ)
    Updates := m.Updates + 1 }

set_option linter.unusedVariables false in
/-- The batch slicing `for i := 0; i < len(w.Data); i += w.BatchSize`:
`w.Data[i:min(i+B, len)]`, i.e. successive `take B` / `drop B` chunks.
For `B = 0` the Go loop never advances (it does not terminate); the embedding
returns `[]`, and every theorem below that involves batching assumes
`1 ≤ B`. -/
def batches (B : Nat) (data : List DataPoint) : List (List DataPoint) :=
  if h : data = [] ∨ B = 0 then []
  else data.take B :: batches B (data.drop B)
termination_by data.length
decreasing_by
  push_neg at h
  obtain ⟨h1, h2⟩ := h
  have hd : 0 < data.length := List.length_pos.mpr h1
  simp only [List.length_drop]
  omega

/-- One iteration of the batch loop body: accumulate gradients for the batch,
append the batch MSE (`batchError / len(batch)`) to `batchErrors`, and apply
the gradient to the model.  An empty batch never arises in the source for
`B ≥ 1` (an empty partition produces no batches at all). -/
def epochStep (lr : ℚ) (st : Model × List ℚ) (batch : List DataPoint) :
    Model × List ℚ :=
  let g := accumGrad st.1 (initGrad st.1) batch
  (st.1.applyGradient g.weightGradients g.biasGradient batch.length lr,
   st.2 ++ [g.batchError / (batch.length : ℚ)])

/-- The whole batch loop of one epoch: the model after all batches plus the
collected `batchErrors` list. -/
def epochResult (lr : ℚ) (B : Nat) (data : List DataPoint) (m : Model) :
    Model × List ℚ :=
  (batches B data).foldl (epochStep lr) (m, [])

/-- The `MetricsMu`-guarded write `w.Model.Metrics[epoch] = averageError`:
a point update of the metrics map (overwriting any previous value). -/
def recordMetric (m : Model) (epoch : Nat) (v : ℚ) : Model :=
  { m with Metrics := fun e => if e = epoch then v else m.Metrics e }

/-- Definition of `averageError`: sum of the batch errors divided by their count.  For a
worker with an empty partition the list is empty and the Go code computes
`0.0 / 0.0 = NaN`; in `ℚ` this is `0 / 0 = 0`. -/
def average (xs : List ℚ) : ℚ :=
  xs.sum / (xs.length : ℚ)

/-- One epoch of `Worker.trainWorker`: run all batches, then record the mean
of the epoch's batch errors under the (0-based) epoch index. -/
def runEpoch (lr : ℚ) (B : Nat) (data : List DataPoint) (epoch : Nat)
    (m : Model) : Model :=
  let r := epochResult lr B data m
  recordMetric r.1 epoch (average r.2)

/-- Function `Worker.trainWorker`: the epoch loop `for epoch := 0; epoch < epochs`. -/
def trainWorker (data : List DataPoint) (B epochs : Nat) (lr : ℚ)
    (m : Model) : Model :=
  (List.range epochs).foldl (fun acc epoch => runEpoch lr B data epoch acc) m

/-- The partitioning loop of `main` (lines 299–309): `chunkSize := len/W`;
worker `i` gets `train[i*chunkSize : (i+1)*chunkSize]`, except the last
worker whose slice extends to `len(train)`.  For `W = 0` the Go code panics
on the integer division; the embedding returns `[]`. -/
def partition (train : List DataPoint) (W : Nat) : List (List DataPoint) :=
  let chunkSize := train.length / W
  (List.range W).map fun i =>
    if i = W - 1 then train.drop (i * chunkSize)
    else (train.drop (i * chunkSize)).take chunkSize

/-- The model constructed in `main`: zero weights of the feature count, zero
bias, zero updates, empty metrics map. -/
def initModel (featureCount : Nat) : Model :=
  { Weights := List.replicate featureCount 0
    Bias := 0
    Updates := 0
    Metrics := fun _ => 0 }

/-- The training phase of `main`: partition the training data across `W`
workers, all sharing one model, and train.  The goroutines are composed
sequentially here (one possible schedule); the properties proved about this
function are interleaving-independent (see the file header). -/
def runPipeline (train : List DataPoint) (W epochs B : Nat) (lr : ℚ)
    (featureCount : Nat) : Model :=
  (partition train W).foldl
    (fun m part => trainWorker part B epochs lr m) (initModel featureCount)

/-- Ceiling division `ceil(n / B)` on naturals, the number of batches a partition of size `n`
yields for batch size `B ≥ 1`. -/
def ceilDiv (n B : Nat) : Nat :=
  (n + B - 1) / B

/-- Concrete datasets for witnesses: `n` one-feature points. -/
def mkData (n : Nat) : List DataPoint :=
  (List.range n).map fun i : Nat => ⟨[(i : ℚ)], (i : ℚ)⟩

/-! ### Helper lemmas about `batches` -/

theorem batches_nil (B : Nat) : batches B [] = [] := by
  rw [batches]; simp

theorem batches_cons (B : Nat) (hB : B ≠ 0) (data : List DataPoint)
    (hd : data ≠ []) :
    batches B data = data.take B :: batches B (data.drop B) := by
  rw [batches]; simp [hd, hB]

theorem length_mkData (n : Nat) : (mkData n).length = n := by
  unfold mkData
  rw [List.length_map, List.length_range]

theorem ceilDiv_zero (B : Nat) (hB : B ≠ 0) : ceilDiv 0 B = 0 := by
  unfold ceilDiv
  exact Nat.div_eq_of_lt (by omega)

theorem ceilDiv_sub_add (n B : Nat) (hB : B ≠ 0) (hn : n ≠ 0) :
    ceilDiv (n - B) B + 1 = ceilDiv n B := by
  unfold ceilDiv
  have hB' : 0 < B := Nat.pos_of_ne_zero hB
  have hr : n + B - 1 = (n - 1) + B := by omega
  rw [hr, Nat.add_div_right _ hB']
  rcases le_or_lt B n with h | h
  · have h1 : n - B + B - 1 = n - 1 := by omega
    rw [h1]
  · have h1 : n - B = 0 := by omega
    rw [h1]
    have h2 : (0 + B - 1) / B = 0 := Nat.div_eq_of_lt (by omega)
    have h3 : (n - 1) / B = 0 := Nat.div_eq_of_lt (by omega)
    omega

theorem batches_length (B : Nat) (hB : B ≠ 0) (data : List DataPoint) :
    (batches B data).length = ceilDiv data.length B := by
  suffices h : ∀ n (data : List DataPoint), data.length = n →
      (batches B data).length = ceilDiv data.length B from h _ data rfl
  intro n
  induction n using Nat.strong_induction_on with
  | _ n ih =>
    intro data hn
    rcases eq_or_ne data [] with rfl | hd
    · simp [batches_nil, ceilDiv_zero B hB]
    · rw [batches_cons B hB data hd]
      have hpos : 0 < data.length := List.length_pos.mpr hd
      have hdrop : (data.drop B).length = data.length - B := List.length_drop B data
      have hlt : (data.drop B).length < n := by omega
      have hih := ih _ hlt (data.drop B) rfl
      simp only [List.length_cons, hih, hdrop]
      exact ceilDiv_sub_add data.length B hB (by omega)

theorem batches_mem_ne_nil (B : Nat) (hB : B ≠ 0) (data : List DataPoint) :
    ∀ b ∈ batches B data, b ≠ [] := by
  suffices h : ∀ n (data : List DataPoint), data.length = n →
      ∀ b ∈ batches B data, b ≠ [] from h _ data rfl
  intro n
  induction n using Nat.strong_induction_on with
  | _ n ih =>
    intro data hn
    rcases eq_or_ne data [] with rfl | hd
    · simp [batches_nil]
    · rw [batches_cons B hB data hd]
      intro b hb
      rcases List.mem_cons.mp hb with rfl | hb'
      · have hpos : 0 < data.length := List.length_pos.mpr hd
        have hl : 0 < (data.take B).length := by
          rw [List.length_take]
          omega
        exact List.length_pos.mp hl
      · have hpos : 0 < data.length := List.length_pos.mpr hd
        have hlt : (data.drop B).length < n := by
          rw [List.length_drop]
          omega
        exact ih _ hlt (data.drop B) rfl b hb'

/-! ### Helper lemmas about `partition` -/

theorem partition_length (train : List DataPoint) (W : Nat) :
    (partition train W).length = W := by
  simp [partition]

theorem join_take_chunks (l : List DataPoint) (c : Nat) :
    ∀ k, (((List.range k).map fun i => (l.drop (i * c)).take c)).flatten
           = l.take (k * c) := by
  intro k
  induction k with
  | zero => simp
  | succ k ih =>
    rw [List.range_succ, List.map_append, List.flatten_append, ih]
    simp only [List.map_cons, List.map_nil, List.flatten_cons, List.flatten_nil,
      List.append_nil]
    rw [Nat.succ_mul, List.take_add]

theorem partition_join_aux (train : List DataPoint) (W : Nat) (hW : 1 ≤ W) :
    (partition train W).flatten = train := by
  obtain ⟨V, rfl⟩ : ∃ V, W = V + 1 := ⟨W - 1, by omega⟩
  unfold partition
  simp only [Nat.add_sub_cancel]
  rw [List.range_succ, List.map_append, List.flatten_append]
  have hmap : (List.range V).map
      (fun i => if i = V then train.drop (i * (train.length / (V + 1)))
        else (train.drop (i * (train.length / (V + 1)))).take
          (train.length / (V + 1)))
      = (List.range V).map
        (fun i => (train.drop (i * (train.length / (V + 1)))).take
          (train.length / (V + 1))) := by
    apply List.map_congr_left
    intro a ha
    have hlt : a < V := List.mem_range.mp ha
    have hne : a ≠ V := by omega
    simp [hne]
  rw [hmap, join_take_chunks]
  simp only [List.map_cons, List.map_nil, List.flatten_cons, List.flatten_nil,
    List.append_nil, if_pos rfl]
  exact List.take_append_drop _ train

theorem partition_sizes_aux (l : List DataPoint) (W : Nat) (hW : 1 ≤ W) :
    (partition l W).map List.length =
      List.replicate (W - 1) (l.length / W) ++ [l.length / W + l.length % W] := by
  obtain ⟨V, rfl⟩ : ∃ V, W = V + 1 := ⟨W - 1, by omega⟩
  unfold partition
  simp only [Nat.add_sub_cancel]
  rw [List.range_succ, List.map_append, List.map_append]
  have hdm := Nat.div_add_mod l.length (V + 1)
  have hVc : (V + 1) * (l.length / (V + 1)) = V * (l.length / (V + 1))
      + l.length / (V + 1) := by ring
  congr 1
  · rw [List.map_map]
    apply List.eq_replicate_iff.mpr
    refine ⟨by simp, ?_⟩
    intro b hb
    simp only [List.mem_map, List.mem_range, Function.comp_apply] at hb
    obtain ⟨i, hi, hbe⟩ := hb
    have hne : i ≠ V := by omega
    rw [if_neg hne] at hbe
    subst hbe
    rw [List.length_take, List.length_drop]
    have h1 : (i + 1) * (l.length / (V + 1)) ≤ (V + 1) * (l.length / (V + 1)) :=
      Nat.mul_le_mul_right _ (by omega)
    have h2 : (i + 1) * (l.length / (V + 1)) = i * (l.length / (V + 1))
        + l.length / (V + 1) := by ring
    omega
  · rw [List.map_map]
    simp only [List.map_cons, List.map_nil, Function.comp_apply]
    rw [if_true, List.length_drop]
    have hlast : l.length - V * (l.length / (V + 1))
        = l.length / (V + 1) + l.length % (V + 1) := by
      obtain ⟨q, hq⟩ : ∃ q, l.length / (V + 1) = q := ⟨_, rfl⟩
      obtain ⟨r, hr⟩ : ∃ r, l.length % (V + 1) = r := ⟨_, rfl⟩
      rw [hq, hr] at hdm ⊢
      have hexp : (V + 1) * q = V * q + q := by ring
      rw [hexp] at hdm
      omega
    rw [hlast]

/-! ### Helper lemmas about the gradient arithmetic -/

theorem length_addScaled (e : ℚ) :
    ∀ (ws fs : List ℚ), (addScaled ws e fs).length = ws.length := by
  intro ws
  induction ws with
  | nil => intro fs; cases fs <;> simp [addScaled]
  | cons w ws ih =>
    intro fs
    cases fs with
    | nil => simp [addScaled]
    | cons f fs => simp [addScaled, ih]

theorem getD_addScaled (e : ℚ) :
    ∀ (ws fs : List ℚ), fs.length ≤ ws.length → ∀ j,
      (addScaled ws e fs).getD j 0 = ws.getD j 0 + e * fs.getD j 0 := by
  intro ws
  induction ws with
  | nil =>
    intro fs hfs j
    have hfs0 : fs = [] := List.length_eq_zero.mp (by simpa using hfs)
    subst hfs0
    simp [addScaled]
  | cons w ws ih =>
    intro fs hfs j
    cases fs with
    | nil => simp [addScaled]
    | cons f fs =>
      cases j with
      | zero => simp [addScaled]
      | succ j =>
        simp only [addScaled, List.getD_cons_succ]
        exact ih fs (by simpa using hfs) j

theorem length_updateWeights (lr bl : ℚ) :
    ∀ (ws gs : List ℚ), (updateWeights lr bl ws gs).length = ws.length := by
  intro ws
  induction ws with
  | nil => intro gs; cases gs <;> simp [updateWeights]
  | cons w ws ih =>
    intro gs
    cases gs with
    | nil => simp [updateWeights]
    | cons g gs => simp [updateWeights, ih]

theorem getD_updateWeights (lr bl : ℚ) :
    ∀ (ws gs : List ℚ), ws.length ≤ gs.length → ∀ j, j < ws.length →
      (updateWeights lr bl ws gs).getD j 0
        = ws.getD j 0 - lr * gs.getD j 0 / bl := by
  intro ws
  induction ws with
  | nil => intro gs hlen j hj; simp at hj
  | cons w ws ih =>
    intro gs hlen j hj
    cases gs with
    | nil => simp at hlen
    | cons g gs =>
      cases j with
      | zero => simp [updateWeights]
      | succ j =>
        simp only [updateWeights, List.getD_cons_succ]
        exact ih gs (by simpa using hlen) j (by simpa using hj)

theorem accumGrad_wg_length (m : Model) :
    ∀ (batch : List DataPoint) (acc : BatchGrad),
      (accumGrad m acc batch).weightGradients.length
        = acc.weightGradients.length := by
  intro batch
  induction batch with
  | nil => intro acc; rfl
  | cons dp rest ih =>
    intro acc
    rw [accumGrad, ih]
    exact length_addScaled _ _ _

theorem accumGrad_biasGradient (m : Model) :
    ∀ (batch : List DataPoint) (acc : BatchGrad),
      (accumGrad m acc batch).biasGradient
        = acc.biasGradient
          + (batch.map fun dp => m.predict dp.Features - dp.Label).sum := by
  intro batch
  induction batch with
  | nil => intro acc; simp [accumGrad]
  | cons dp rest ih =>
    intro acc
    rw [accumGrad, ih]
    simp only [List.map_cons, List.sum_cons]
    ring

theorem accumGrad_batchError (m : Model) :
    ∀ (batch : List DataPoint) (acc : BatchGrad),
      (accumGrad m acc batch).batchError
        = acc.batchError
          + (batch.map fun dp => (m.predict dp.Features - dp.Label) ^ 2).sum := by
  intro batch
  induction batch with
  | nil => intro acc; simp [accumGrad]
  | cons dp rest ih =>
    intro acc
    rw [accumGrad, ih]
    simp only [List.map_cons, List.sum_cons]
    ring

theorem accumGrad_wg_getD (m : Model) (j : Nat) :
    ∀ (batch : List DataPoint) (acc : BatchGrad),
      (∀ dp ∈ batch, dp.Features.length ≤ acc.weightGradients.length) →
      (accumGrad m acc batch).weightGradients.getD j 0
        = acc.weightGradients.getD j 0
          + (batch.map fun dp =>
              (m.predict dp.Features - dp.Label) * dp.Features.getD j 0).sum := by
  intro batch
  induction batch with
  | nil => intro acc hlen; simp [accumGrad]
  | cons dp rest ih =>
    intro acc hlen
    rw [accumGrad]
    have hdp : dp.Features.length ≤ acc.weightGradients.length :=
      hlen dp (List.mem_cons_self dp rest)
    have hrest : ∀ d ∈ rest,
        d.Features.length ≤ (addScaled acc.weightGradients
          (m.predict dp.Features - dp.Label) dp.Features).length := by
      intro d hd
      rw [length_addScaled]
      exact hlen d (List.mem_cons_of_mem dp hd)
    rw [ih _ hrest, getD_addScaled _ _ _ hdp]
    simp only [List.map_cons, List.sum_cons]
    ring

/-! ### Helper lemmas about the training loops -/

theorem foldl_epochStep_Updates (lr : ℚ) :
    ∀ (bs : List (List DataPoint)) (m : Model) (errs : List ℚ),
      (bs.foldl (epochStep lr) (m, errs)).1.Updates = m.Updates + bs.length := by
  intro bs
  induction bs with
  | nil => intro m errs; rfl
  | cons b bs ih =>
    intro m errs
    rw [List.foldl_cons, ih]
    simp [epochStep, Model.applyGradient]
    omega

theorem foldl_epochStep_Metrics (lr : ℚ) :
    ∀ (bs : List (List DataPoint)) (m : Model) (errs : List ℚ),
      (bs.foldl (epochStep lr) (m, errs)).1.Metrics = m.Metrics := by
  intro bs
  induction bs with
  | nil => intro m errs; rfl
  | cons b bs ih =>
    intro m errs
    rw [List.foldl_cons, ih]
    rfl

theorem foldl_epochStep_WeightsLength (lr : ℚ) :
    ∀ (bs : List (List DataPoint)) (m : Model) (errs : List ℚ),
      (bs.foldl (epochStep lr) (m, errs)).1.Weights.length
        = m.Weights.length := by
  intro bs
  induction bs with
  | nil => intro m errs; rfl
  | cons b bs ih =>
    intro m errs
    rw [List.foldl_cons, ih]
    simp [epochStep, Model.applyGradient, length_updateWeights]

theorem runEpoch_Updates (lr : ℚ) (B : Nat) (data : List DataPoint)
    (ep : Nat) (m : Model) :
    (runEpoch lr B data ep m).Updates = m.Updates + (batches B data).length := by
  unfold runEpoch recordMetric epochResult
  exact foldl_epochStep_Updates lr _ m []

theorem runEpoch_WeightsLength (lr : ℚ) (B : Nat) (data : List DataPoint)
    (ep : Nat) (m : Model) :
    (runEpoch lr B data ep m).Weights.length = m.Weights.length := by
  unfold runEpoch recordMetric epochResult
  exact foldl_epochStep_WeightsLength lr _ m []

theorem runEpoch_Metrics_self (lr : ℚ) (B : Nat) (data : List DataPoint)
    (ep : Nat) (m : Model) :
    (runEpoch lr B data ep m).Metrics ep = average (epochResult lr B data m).2 := by
  unfold runEpoch recordMetric
  simp

theorem runEpoch_Metrics_other (lr : ℚ) (B : Nat) (data : List DataPoint)
    (ep : Nat) (m : Model) (e : Nat) (he : e ≠ ep) :
    (runEpoch lr B data ep m).Metrics e = m.Metrics e := by
  unfold runEpoch recordMetric
  simp only [if_neg he]
  unfold epochResult
  rw [foldl_epochStep_Metrics]

theorem trainWorker_succ (data : List DataPoint) (B E : Nat) (lr : ℚ)
    (m : Model) :
    trainWorker data B (E + 1) lr m
      = runEpoch lr B data E (trainWorker data B E lr m) := by
  unfold trainWorker
  rw [List.range_succ, List.foldl_append, List.foldl_cons, List.foldl_nil]

theorem trainWorker_Updates (data : List DataPoint) (B : Nat) (lr : ℚ) :
    ∀ (E : Nat) (m : Model),
      (trainWorker data B E lr m).Updates
        = m.Updates + E * (batches B data).length := by
  intro E
  induction E with
  | zero => intro m; simp [trainWorker]
  | succ E ih =>
    intro m
    rw [trainWorker_succ, runEpoch_Updates, ih]
    ring

theorem trainWorker_WeightsLength (data : List DataPoint) (B : Nat) (lr : ℚ) :
    ∀ (E : Nat) (m : Model),
      (trainWorker data B E lr m).Weights.length = m.Weights.length := by
  intro E
  induction E with
  | zero => intro m; simp [trainWorker]
  | succ E ih =>
    intro m
    rw [trainWorker_succ, runEpoch_WeightsLength, ih]

theorem foldl_trainWorker_Updates (B E : Nat) (lr : ℚ) :
    ∀ (parts : List (List DataPoint)) (m : Model),
      (parts.foldl (fun m part => trainWorker part B E lr m) m).Updates
        = m.Updates + E * (parts.map fun p => (batches B p).length).sum := by
  intro parts
  induction parts with
  | nil => intro m; simp
  | cons p parts ih =>
    intro m
    rw [List.foldl_cons, ih, trainWorker_Updates]
    simp only [List.map_cons, List.sum_cons]
    ring

theorem runPipeline_Updates (train : List DataPoint) (W E B : Nat) (lr : ℚ)
    (fc : Nat) (hB : B ≠ 0) :
    (runPipeline train W E B lr fc).Updates
      = E * ((partition train W).map fun p => ceilDiv p.length B).sum := by
  unfold runPipeline
  rw [foldl_trainWorker_Updates]
  have hmap : ((partition train W).map fun p => (batches B p).length)
      = (partition train W).map fun p => ceilDiv p.length B :=
    List.map_congr_left fun p _ => batches_length B hB p
  rw [hmap]
  simp [initModel]

theorem getD_replicate_zero : ∀ (n j : Nat), (List.replicate n (0 : ℚ)).getD j 0 = 0 := by
  intro n
  induction n with
  | zero => intro j; simp
  | succ n ih =>
    intro j
    cases j with
    | zero => simp [List.replicate]
    | succ j => simp [List.replicate, ih j]

theorem predictAux_eq :
    ∀ (ws fs : List ℚ) (s : ℚ), ws.length ≤ fs.length →
      predictAux s ws fs
        = s + ∑ j ∈ Finset.range ws.length, ws.getD j 0 * fs.getD j 0 := by
  intro ws
  induction ws with
  | nil => intro fs s hlen; simp [predictAux]
  | cons w ws ih =>
    intro fs s hlen
    cases fs with
    | nil => simp at hlen
    | cons f fs =>
      rw [predictAux, ih fs (s + w * f) (by simpa using hlen)]
      rw [List.length_cons, Finset.sum_range_succ']
      simp only [List.getD_cons_succ, List.getD_cons_zero]
      ring

/-! ### The claims -/

/-- C1: after a full training run completes (all workers joined), the Model's
update counter equals the total number of batches processed: `epochs` times
the sum over workers of `ceil(partitionSize_w / batchSize)`, for every
dataset, worker count, epoch count and positive batch size. -/
theorem C1_update_counter (train : List DataPoint) (W E B : Nat) (lr : ℚ)
    (fc : Nat) (hB : 1 ≤ B) :
    (runPipeline train W E B lr fc).Updates
      = E * ((partition train W).map fun p => ceilDiv p.length B).sum :=
  runPipeline_Updates train W E B lr fc (by omega)

/-- Witness for C1: 5 points, 2 workers (partition sizes 2 and 3), 3 epochs,
batch size 2 gives `3 * (1 + 2) = 9` updates. -/
theorem C1_update_counter_witness :
    (runPipeline (mkData 5) 2 3 2 (1 / 100) 1).Updates = 9 := by
  have h := C1_update_counter (mkData 5) 2 3 2 (1 / 100) 1 (by decide)
  rw [h]
  decide

/-- C2: for every training set and every worker count `W ≥ 1` (in particular
any `W` from 1 up to the training-set size), the partitioning step produces
`W` contiguous, non-overlapping slices whose concatenation equals the
training set exactly: no data point dropped, none duplicated. -/
theorem C2_partition_complete (train : List DataPoint) (W : Nat)
    (hW : 1 ≤ W) :
    (partition train W).flatten = train ∧ (partition train W).length = W :=
  ⟨partition_join_aux train W hW, partition_length train W⟩

/-- Witness for C2 at 5 points and 3 workers. -/
theorem C2_partition_complete_witness :
    (partition (mkData 5) 3).flatten = mkData 5
      ∧ (partition (mkData 5) 3).length = 3 :=
  C2_partition_complete (mkData 5) 3 (by decide)

/-- C4 counterexample: with a 3-point training set and 4 workers (an invalid
configuration per the claim) the code raises no `ConfigurationError` — no
such error exists in the source — the first three workers get empty
partitions, and training still runs to completion, applying 2 gradient
updates (the last worker's `ceil(3/2)` batches in its single epoch). -/
theorem C4_counterexample :
    ((partition (mkData 3) 4).map List.length = [0, 0, 0, 3])
    ∧ (runPipeline (mkData 3) 4 1 2 (1 / 100) 1).Updates = 2 := by
  constructor
  · decide
  · rw [runPipeline_Updates (mkData 3) 4 1 2 (1 / 100) 1 (by decide)]
    decide

/-- C4 (amended): the trainer performs no configuration validation and never
fails — no `ConfigurationError` exists in the code; when
`workerCount ≤ |trainingSet|` every worker does receive at least one data
point, but when `workerCount` exceeds the training-set size the first
`workerCount − 1` workers silently receive empty partitions and training
runs anyway. -/
theorem C4_amended_no_validation (l : List DataPoint) (W : Nat) (hW : 1 ≤ W) :
    (W ≤ l.length → ∀ p ∈ partition l W, p ≠ [])
    ∧ (l.length < W → ∀ p ∈ (partition l W).take (W - 1), p = []) := by
  constructor
  · intro hle p hp
    have hmem : p.length ∈ (partition l W).map List.length :=
      List.mem_map_of_mem _ hp
    rw [partition_sizes_aux l W hW] at hmem
    have hc : 1 ≤ l.length / W := (Nat.one_le_div_iff (by omega)).mpr hle
    apply List.length_pos.mp
    rcases List.mem_append.mp hmem with h1 | h2
    · have he := List.eq_of_mem_replicate h1
      omega
    · simp only [List.mem_singleton] at h2
      omega
  · intro hlt p hp
    unfold partition at hp
    rw [← List.map_take, List.take_range] at hp
    simp only [List.mem_map, List.mem_range] at hp
    obtain ⟨i, hi, rfl⟩ := hp
    have hne : i ≠ W - 1 := by omega
    rw [if_neg hne]
    have hc : l.length / W = 0 := Nat.div_eq_of_lt hlt
    rw [hc, List.take_zero]

/-- Witness for the amended C4 at 3 points and 4 workers. -/
theorem C4_amended_no_validation_witness :
    (4 ≤ (mkData 3).length → ∀ p ∈ partition (mkData 3) 4, p ≠ [])
    ∧ ((mkData 3).length < 4 →
        ∀ p ∈ (partition (mkData 3) 4).take (4 - 1), p = []) :=
  C4_amended_no_validation (mkData 3) 4 (by decide)

/-- C5 counterexample: 10 points across 4 workers yields partition sizes
`[2, 2, 2, 4]` — the last partition absorbs the whole remainder, so two
partition sizes differ by 2, refuting "partition sizes differ from one
another by at most 1". -/
theorem C5_counterexample :
    ((partition (mkData 10) 4).map List.length = [2, 2, 2, 4])
    ∧ ¬ (∀ a ∈ (partition (mkData 10) 4).map List.length,
          ∀ b ∈ (partition (mkData 10) 4).map List.length, b ≤ a + 1) := by
  constructor
  · decide
  · decide

/-- C5 (amended): for a training set of size N partitioned across `W ≥ 1`
workers, the first `W − 1` partitions each have size `⌊N/W⌋` and the last
has `⌊N/W⌋ + (N mod W)` — the last partition absorbs the remainder exactly,
so sizes can differ by up to `W − 1` (they differ by at most 1 only when
`N mod W ≤ 1`); in particular 100 points across 4 workers yields sizes
{25,25,25,25}. -/
theorem C5_amended_partition_sizes (l : List DataPoint) (W : Nat)
    (hW : 1 ≤ W) :
    (partition l W).map List.length
      = List.replicate (W - 1) (l.length / W)
        ++ [l.length / W + l.length % W] :=
  partition_sizes_aux l W hW

/-- Witness for the amended C5: the claim's own example, 100 points across
4 workers, gives sizes `[25, 25, 25, 25]`. -/
theorem C5_amended_partition_sizes_witness :
    (partition (mkData 100) 4).map List.length = [25, 25, 25, 25] := by
  have h := C5_amended_partition_sizes (mkData 100) 4 (by decide)
  rw [h, length_mkData]
  decide

/-- C6: for every batch the worker computes, per feature dimension `j`, the
sum over the batch of `(prediction − label) * feature_j`, the sum of
`(prediction − label)` as the bias gradient, and the sum of squared errors
(whose division by the batch length is the mean squared batch error);
applying the batch subtracts `learningRate * gradient / batchLength` from
each weight and from the bias and increments the update counter by exactly
one. -/
theorem C6_batch_gradient (m : Model) (batch : List DataPoint) (lr : ℚ)
    (j : Nat)
    (hlen : ∀ dp ∈ batch, dp.Features.length = m.Weights.length)
    (hj : j < m.Weights.length) :
    (accumGrad m (initGrad m) batch).weightGradients.getD j 0
      = (batch.map fun dp =>
          (m.predict dp.Features - dp.Label) * dp.Features.getD j 0).sum
    ∧ (accumGrad m (initGrad m) batch).biasGradient
      = (batch.map fun dp => m.predict dp.Features - dp.Label).sum
    ∧ (accumGrad m (initGrad m) batch).batchError
      = (batch.map fun dp => (m.predict dp.Features - dp.Label) ^ 2).sum
    ∧ (m.applyGradient (accumGrad m (initGrad m) batch).weightGradients
        (accumGrad m (initGrad m) batch).biasGradient batch.length
        lr).Weights.getD j 0
      = m.Weights.getD j 0
        - lr * (accumGrad m (initGrad m) batch).weightGradients.getD j 0
            / (batch.length : ℚ)
    ∧ (m.applyGradient (accumGrad m (initGrad m) batch).weightGradients
        (accumGrad m (initGrad m) batch).biasGradient batch.length lr).Bias
      = m.Bias
        - lr * (accumGrad m (initGrad m) batch).biasGradient
            / (batch.length : ℚ)
    ∧ (m.applyGradient (accumGrad m (initGrad m) batch).weightGradients
        (accumGrad m (initGrad m) batch).biasGradient batch.length
        lr).Updates
      = m.Updates + 1 := by
  have hinit : (initGrad m).weightGradients.length = m.Weights.length := by
    simp [initGrad]
  have hwglen : (accumGrad m (initGrad m) batch).weightGradients.length
      = m.Weights.length := by
    rw [accumGrad_wg_length, hinit]
  refine ⟨?_, ?_, ?_, ?_, rfl, rfl⟩
  · rw [accumGrad_wg_getD m j batch (initGrad m)
      (fun dp hdp => by rw [hinit]; exact (hlen dp hdp).le)]
    simp [initGrad, getD_replicate_zero]
  · rw [accumGrad_biasGradient]
    simp [initGrad]
  · rw [accumGrad_batchError]
    simp [initGrad]
  · unfold Model.applyGradient
    exact getD_updateWeights lr (batch.length : ℚ) m.Weights _
      (by omega) j hj

/-- A concrete one-weight model for the C6 witness. -/
def wModel : Model :=
  ⟨[1/2], 1, 0, fun _ => 0⟩

/-- A concrete two-point batch for the C6 witness. -/
def wBatch : List DataPoint :=
  [⟨[2], 3⟩, ⟨[4], 5⟩]

/-- Witness for C6: one weight `1/2`, bias `1`, batch of two one-feature
points, learning rate `1/10`, feature index 0. -/
theorem C6_batch_gradient_witness :
    (accumGrad wModel (initGrad wModel) wBatch).weightGradients.getD 0 0
      = (wBatch.map fun dp =>
          (wModel.predict dp.Features - dp.Label) * dp.Features.getD 0 0).sum
    ∧ (wModel.applyGradient
        (accumGrad wModel (initGrad wModel) wBatch).weightGradients
        (accumGrad wModel (initGrad wModel) wBatch).biasGradient
        wBatch.length (1/10)).Updates = wModel.Updates + 1 := by
  have h := C6_batch_gradient wModel wBatch (1/10) 0 (by decide) (by decide)
  exact ⟨h.1, h.2.2.2.2.2⟩

/-- C7: for every feature vector (of at least the model's dimension, so that
the Go indexing does not panic), `Model.predict` returns the bias plus the
dot product of the weight vector with the features; it is a pure function of
the model — it returns only a scalar and writes no state. -/
theorem C7_predict (m : Model) (fs : List ℚ)
    (h : m.Weights.length ≤ fs.length) :
    m.predict fs
      = m.Bias + ∑ j ∈ Finset.range m.Weights.length,
          m.Weights.getD j 0 * fs.getD j 0 :=
  predictAux_eq m.Weights fs m.Bias h

/-- Witness for C7: weights `[2, 3]`, bias `5`, features `[7, 11]` predict
`5 + 2*7 + 3*11 = 52`. -/
theorem C7_predict_witness :
    Model.predict ⟨[2, 3], 5, 0, fun _ => 0⟩ [7, 11] = 52 := by
  have h := C7_predict ⟨[2, 3], 5, 0, fun _ => 0⟩ [7, 11] (by decide)
  rw [h]
  simp [Finset.sum_range_succ]
  norm_num

/-- C8: at the end of each epoch a worker records into the metrics store,
keyed by the 0-based epoch index, the arithmetic mean (`average`) of its own
batch mean-squared-errors for that epoch, leaving all other keys unchanged,
with overwrite semantics: after a second worker writes the same epoch key,
the stored value is the second writer's average. -/
theorem C8_epoch_metric (lr : ℚ) (B : Nat) (d1 d2 : List DataPoint)
    (ep : Nat) (m : Model) :
    (runEpoch lr B d1 ep m).Metrics ep = average (epochResult lr B d1 m).2
    ∧ (∀ e, e ≠ ep → (runEpoch lr B d1 ep m).Metrics e = m.Metrics e)
    ∧ (runEpoch lr B d2 ep (runEpoch lr B d1 ep m)).Metrics ep
        = average (epochResult lr B d2 (runEpoch lr B d1 ep m)).2 :=
  ⟨runEpoch_Metrics_self lr B d1 ep m,
   fun e he => runEpoch_Metrics_other lr B d1 ep m e he,
   runEpoch_Metrics_self lr B d2 ep (runEpoch lr B d1 ep m)⟩

/-- Witness for C8 at concrete inputs (epoch key 0 gets the epoch average,
key 5 is untouched). -/
theorem C8_epoch_metric_witness :
    (runEpoch (1/2) 2 (mkData 2) 0 (initModel 1)).Metrics 0
      = average (epochResult (1/2) 2 (mkData 2) (initModel 1)).2
    ∧ (runEpoch (1/2) 2 (mkData 2) 0 (initModel 1)).Metrics 5
      = (initModel 1).Metrics 5 := by
  have h := C8_epoch_metric (1/2) 2 (mkData 2) (mkData 3) 0 (initModel 1)
  exact ⟨h.1, h.2.1 5 (by decide)⟩

/-- C9: every operation on the Model preserves the two invariants: the
weight-vector length never changes (under a single gradient application and
under a worker's whole training run), and the update counter never decreases
(each gradient application increments it by exactly one, and a training run
only raises it). -/
theorem C9_model_invariants (m : Model) (wg : List ℚ) (bg lr : ℚ) (bl : Nat)
    (data : List DataPoint) (B E : Nat) :
    ((m.applyGradient wg bg bl lr).Weights.length = m.Weights.length
      ∧ (m.applyGradient wg bg bl lr).Updates = m.Updates + 1)
    ∧ ((trainWorker data B E lr m).Weights.length = m.Weights.length
      ∧ m.Updates ≤ (trainWorker data B E lr m).Updates) := by
  refine ⟨⟨length_updateWeights lr (bl : ℚ) m.Weights wg, rfl⟩,
    ⟨trainWorker_WeightsLength data B lr E m, ?_⟩⟩
  rw [trainWorker_Updates]
  omega

/-- C10: for a non-empty partition and batch size at least 1, every batch the
training loop forms is non-empty and the per-epoch batch-error list is
non-empty, so every division performed (by the batch length and by the
number of batches) has a positive divisor; with an empty partition there are
no batches and the epoch average is the division `0 / 0` (`NaN` in the Go
float semantics, `0` in `ℚ`). -/
theorem C10_division_guards (data : List DataPoint) (B : Nat) (lr : ℚ)
    (m : Model) (hB : 1 ≤ B) :
    (data ≠ [] → (∀ b ∈ batches B data, 1 ≤ b.length)
      ∧ 1 ≤ (batches B data).length)
    ∧ batches B ([] : List DataPoint) = []
    ∧ (epochResult lr B [] m).2 = [] := by
  refine ⟨?_, batches_nil B, ?_⟩
  · intro hd
    constructor
    · intro b hb
      exact List.length_pos.mpr (batches_mem_ne_nil B (by omega) data b hb)
    · rw [batches_length B (by omega) data]
      unfold ceilDiv
      have hlen : 1 ≤ data.length := List.length_pos.mpr hd
      rw [Nat.one_le_div_iff (by omega)]
      omega
  · unfold epochResult
    rw [batches_nil]
    rfl

/-- Witness for C10: 3 points with batch size 2 give batches of sizes 2 and
1, both positive. -/
theorem C10_division_guards_witness :
    (∀ b ∈ batches 2 (mkData 3), 1 ≤ b.length)
      ∧ 1 ≤ (batches 2 (mkData 3)).length := by
  have h := C10_division_guards (mkData 3) 2 (1/2) (initModel 1) (by decide)
  exact h.1 (by decide)

end WinePipeline
